import Mathlib

/-!
Verification development for the pyMicrodata distiller.

The repository ships the front end pyMicrodata/__init__.py; the conversion core
(the MicrodataConversion class imported from pyMicrodata.microdata) and the
URIOpener helper are not part of the source tree, so the core is modelled from
the specification (sections 3 to 4.5 of spec.md), as indicated on each
definition. The front-end functions (_validate_output_format,
_generate_error_graph, graph_from_dom, graph_from_source, process_uri) are
embedded directly from pyMicrodata/__init__.py.
-/

set_option maxHeartbeats 1000000

namespace Microdata

/-- Subject of an item: a URI derived from itemid, or an anonymous identifier
(modelling an RDF blank node, identified by a run-scoped counter value). -/
inductive Subject where
  | uri (u : String)
  | anon (i : Nat)
deriving DecidableEq, Repr

/-- Extracted property value: URI, plain literal, or typed literal. -/
inductive ObjectValue where
  | uriVal (u : String)
  | plain (s : String)
  | typed (s : String) (kind : String)
deriving DecidableEq, Repr

/-- Object position of a triple: a nested item subject, or an extracted value. -/
inductive Obj where
  | subj (s : Subject)
  | val (v : ObjectValue)
deriving DecidableEq, Repr

/-- One RDF triple. -/
structure Triple where
  subj : Subject
  pred : String
  obj : Obj
deriving DecidableEq, Repr

/-- Modelled from the spec (section 3, Document Tree Node; microdata.py is absent
from src/): an element node has an identity (modelling Python object identity of
the DOM node, used as the Memory Table key), a tag name, an attribute list and
ordered children; text nodes carry character data and answer no attributes. -/
inductive Node where
  | text (s : String)
  | elem (nid : Nat) (tag : String) (attrs : List (String × String)) (children : List Node)
deriving Repr

def attrsOf : Node → List (String × String)
  | .text _ => []
  | .elem _ _ a _ => a

def childrenOf : Node → List Node
  | .text _ => []
  | .elem _ _ _ cs => cs

def tagOf : Node → String
  | .text _ => ""
  | .elem _ t _ _ => t

def nidOf : Node → Nat
  | .text _ => 0
  | .elem i _ _ _ => i

def getAttr (n : Node) (name : String) : Option String :=
  List.lookup name (attrsOf n)

def hasAttr (n : Node) (name : String) : Bool :=
  (getAttr n name).isSome

mutual

/-- All element nodes of a tree, the root included, in document order. -/
def subnodes : Node → List Node
  | .text _ => []
  | .elem i t a cs => .elem i t a cs :: subnodesL cs

def subnodesL : List Node → List Node
  | [] => []
  | c :: cs => subnodes c ++ subnodesL cs

end

mutual

/-- Concatenated descendant text, modelling the spec text content semantics. -/
def textContent : Node → String
  | .text s => s
  | .elem _ _ _ cs => textContentL cs

def textContentL : List Node → String
  | [] => ""
  | c :: cs => textContent c ++ textContentL cs

end

mutual

/-- Modelled from the spec (section 4.4 step 4): property elements of a scope.
A node carrying itemprop is itself a property element; descent stops at a
nested itemscope boundary, whose internal itemprop elements belong to the
nested item. -/
def propElemsOf : Node → List Node
  | .text _ => []
  | .elem i t a cs =>
      (if (List.lookup "itemprop" a).isSome then [Node.elem i t a cs] else []) ++
      (if (List.lookup "itemscope" a).isSome then [] else propElemsL cs)

def propElemsL : List Node → List Node
  | [] => []
  | c :: cs => propElemsOf c ++ propElemsL cs

end

/-- Document-wide id lookup, modelling elements_by_id of the input interface. -/
def getById (root : Node) (s : String) : Option Node :=
  (subnodes root).find? (fun n => getAttr n "id" == some s)

def isWS (c : Char) : Bool :=
  c == ' ' || c == '\t' || c == '\n' || c == '\r'

def splitWSAux : List Char → List Char → List String
  | [], acc => if acc.isEmpty then [] else [acc.reverse.asString]
  | c :: cs, acc =>
      if isWS c then
        (if acc.isEmpty then [] else [acc.reverse.asString]) ++ splitWSAux cs []
      else splitWSAux cs (c :: acc)

/-- Whitespace-separated token list of an attribute value. -/
def splitTokens (s : String) : List String :=
  splitWSAux s.toList []

def trimChars (s : String) : String :=
  ((s.toList.dropWhile isWS).reverse.dropWhile isWS).reverse.asString

def containsChar (s : String) (c : Char) : Bool :=
  s.toList.contains c

def headCharIs (s : String) (c : Char) : Bool :=
  match s.toList with
  | d :: _ => d == c
  | [] => false

def lastCharIs (s : String) (c : Char) : Bool :=
  match s.toList.getLast? with
  | some d => d == c
  | none => false

/-- Rest of the character list after a leading occurrence of the pattern. -/
def stripLead : List Char → List Char → Option (List Char)
  | [], rest => some rest
  | _ :: _, [] => none
  | p :: ps, c :: cs => if p == c then stripLead ps cs else none

/-- Split at the first occurrence of the pattern, when there is one. -/
def splitFirst (pat : List Char) : List Char → Option (List Char × List Char)
  | [] =>
      match stripLead pat [] with
      | some rest => some ([], rest)
      | none => none
  | c :: cs =>
      match stripLead pat (c :: cs) with
      | some rest => some ([], rest)
      | none =>
          match splitFirst pat cs with
          | some (l, r) => some (c :: l, r)
          | none => none

/-- Origin (scheme and authority) of a base URI, for root-relative references. -/
def originOf (base : String) : String :=
  match splitFirst [':', '/', '/'] base.toList with
  | some (sch, rest) =>
      sch.asString ++ "://" ++ ((rest.takeWhile (fun c => !(c == '/'))).asString)
  | none => base

/-- Directory part of a base URI: everything up to and including the last slash. -/
def dirOf (base : String) : String :=
  ((base.toList.reverse.dropWhile (fun ch => !(ch == '/'))).reverse).asString

/-- Modelled from the spec (section 4.1, URI Resolver; the helper module is absent
from src/): absolute candidates (containing a scheme delimiter) are returned
unchanged, empty candidates are Invalid (none), and relative candidates are
resolved against the base by standard relative-reference resolution, which this
model approximates by prefixing the origin or the directory of the base. -/
def resolveURI (base cand : String) : Option String :=
  let c := trimChars cand
  if c = "" then none
  else if containsChar c ':' then some c
  else if headCharIs c '/' then some (originOf base ++ c)
  else some (dirOf base ++ c)

/-- Modelled from the spec (section 4.2): strip a type URI down to its last slash
or hash to obtain the vocabulary; a URI already ending in a separator is used
as-is. -/
def vocabFromType (u : String) : String :=
  if lastCharIs u '/' || lastCharIs u '#' then u
  else
    let strip := ((u.toList.reverse.dropWhile (fun ch => !(ch == '/' || ch == '#'))).reverse).asString
    if strip = "" then u else strip

/-- Modelled from the spec (section 4.2): the first absolute URI among the
itemtype tokens determines the vocabulary; with no such token there is none. -/
def vocabularyFor (n : Node) : Option String :=
  match getAttr n "itemtype" with
  | none => none
  | some tv =>
      match (splitTokens tv).find? (fun t => containsChar t ':') with
      | none => none
      | some t => some (vocabFromType t)

def ends_with_sep (v : String) : Bool :=
  lastCharIs v '/' || lastCharIs v '#' || lastCharIs v '_'

/-- Modelled from the spec (section 4.2): a token containing a scheme delimiter is
an absolute predicate URI; otherwise a non-None vocabulary is required and the
predicate is vocabulary ++ token, with a hash inserted only when the vocabulary
does not already end in slash, hash or underscore; with no vocabulary the bare
token yields no predicate. -/
def predicate_for (base : String) (vocab : Option String) (token : String) : Option String :=
  if containsChar token ':' then resolveURI base token
  else
    match vocab with
    | none => none
    | some v => some (v ++ (if ends_with_sep v then "" else "#") ++ token)

def urlAttrFor (tag : String) : Option String :=
  if tag ∈ ["audio", "embed", "iframe", "img", "source", "track", "video"] then some "src"
  else if tag ∈ ["a", "area", "link"] then some "href"
  else if tag == "object" then some "data"
  else none

def looksDate (s : String) : Bool :=
  match s.toList with
  | [a, b, c, d, h1, e, f, h2, g, h] =>
      a.isDigit && b.isDigit && c.isDigit && d.isDigit && h1 == '-' &&
      e.isDigit && f.isDigit && h2 == '-' && g.isDigit && h.isDigit
  | _ => false

def looksTime (s : String) : Bool :=
  match s.toList with
  | [a, b, c, d, e] => a.isDigit && b.isDigit && c == ':' && d.isDigit && e.isDigit
  | [a, b, c, d, e, f, g, h] =>
      a.isDigit && b.isDigit && c == ':' && d.isDigit && e.isDigit &&
      f == ':' && g.isDigit && h.isDigit
  | _ => false

def looksDateTime (s : String) : Bool :=
  match splitFirst ['T'] s.toList with
  | some (d, t) => looksDate d.asString && looksTime t.asString
  | none => false

def looksDuration (s : String) : Bool :=
  headCharIs s 'P' && s.toList.length > 1

/-- Lexical shape recognition for time elements (section 4.3). -/
def timeKind (s : String) : Option String :=
  if looksDateTime s then some "dateTime"
  else if looksDate s then some "date"
  else if looksTime s then some "time"
  else if looksDuration s then some "duration"
  else none

/-- Modelled from the spec (section 4.3, Value Extractor dispatch table): per-tag
source attribute with graceful fall back to text content when the expected
attribute is absent or its URI is malformed. -/
def extractValue (base : String) (n : Node) : ObjectValue :=
  let tag := tagOf n
  if tag == "meta" then
    match getAttr n "content" with
    | some v => .plain v
    | none => .plain (textContent n)
  else
    match urlAttrFor tag with
    | some aname =>
        match getAttr n aname with
        | some v =>
            match resolveURI base v with
            | some u => .uriVal u
            | none => .plain (textContent n)
        | none => .plain (textContent n)
    | none =>
        if tag == "data" || tag == "meter" then
          match getAttr n "value" with
          | some v => .plain v
          | none => .plain (textContent n)
        else if tag == "time" then
          let lex := match getAttr n "datetime" with
                     | some v => v
                     | none => textContent n
          match timeKind lex with
          | some k => .typed lex k
          | none => .plain lex
        else
          .plain (textContent n)

/-- Conversion state: the Memory Table (tree node identity to Subject), the
anonymous-identifier counter, and the triples emitted so far. -/
structure CState where
  memo : List (Nat × Subject)
  counter : Nat
  triples : List Triple
deriving DecidableEq, Repr

def lookupMemo : List (Nat × Subject) → Nat → Option Subject
  | [], _ => none
  | (k, v) :: m, k2 => if k2 = k then some v else lookupMemo m k2

def rdf_type : String := "http://www.w3.org/1999/02/22-rdf-syntax-ns#type"

/-- Modelled from the spec (section 4.4 step 3): one type triple per itemtype
token that resolves to a valid URI. -/
def typeTriples (base : String) (s : Subject) (n : Node) : List Triple :=
  match getAttr n "itemtype" with
  | none => []
  | some tv =>
      (splitTokens tv).filterMap (fun t =>
        match resolveURI base t with
        | some u => some ⟨s, rdf_type, Obj.val (.uriVal u)⟩
        | none => none)

/-- Modelled from the spec (section 4.4 step 4): property elements contributed by
the itemref tokens; unresolvable ids are skipped, a resolved element is scanned
like a direct descendant and is itself included when itemprop-bearing. -/
def itemrefElems (root : Node) (n : Node) : List Node :=
  match getAttr n "itemref" with
  | none => []
  | some rv =>
      ((splitTokens rv).filterMap (fun idstr => getById root idstr)).flatMap propElemsOf

/-- Modelled from the spec (section 4.4 step 4): the property elements of an item,
direct scope first, then the itemref additions. -/
def itemProps (root : Node) (n : Node) : List Node :=
  propElemsL (childrenOf n) ++ itemrefElems root n

/-- Flattened iteration of step 5: for each property element, for each of its
whitespace-separated itemprop tokens, one pair. -/
def propPairs (root : Node) (n : Node) : List (Node × String) :=
  (itemProps root n).flatMap (fun p =>
    (splitTokens ((getAttr p "itemprop").getD "")).map (fun t => (p, t)))

/-- Modelled from the spec (section 4.4 step 5): per token, resolve the predicate
(dropping the token when none can be formed), then either recurse into a nested
item through the given item-processing function or extract a value, emitting
one triple. -/
def processPairsWith (base : String) (rec : Node → CState → Option (Subject × CState)) :
    Subject → Option String → List (Node × String) → CState → Option CState
  | _, _, [], st => some st
  | subj, vocab, (p, tok) :: rest, st =>
    match predicate_for base vocab tok with
    | none => processPairsWith base rec subj vocab rest st
    | some pred =>
      if hasAttr p "itemscope" then
        match rec p st with
        | none => none
        | some (ns, st2) =>
            processPairsWith base rec subj vocab rest
              { st2 with triples := st2.triples ++ [⟨subj, pred, Obj.subj ns⟩] }
      else
        processPairsWith base rec subj vocab rest
          { st with triples := st.triples ++ [⟨subj, pred, Obj.val (extractValue base p)⟩] }

/-- Modelled from the spec (section 4.4 step 2): the absolutized itemid of an
item, when present and valid. -/
def itemidSubject (base : String) (n : Node) : Option String :=
  match getAttr n "itemid" with
  | none => none
  | some v => resolveURI base v

/-- Modelled from the spec (section 4.4 step 2): the Subject of an item entered
with anonymous counter value c. -/
def subjectFor (base : String) (n : Node) (c : Nat) : Subject :=
  match itemidSubject base n with
  | some u => .uri u
  | none => .anon c

/-- Counter value after minting the Subject: advanced exactly when a fresh
anonymous identifier was used. -/
def counterAfter (base : String) (n : Node) (c : Nat) : Nat :=
  match itemidSubject base n with
  | some _ => c
  | none => c + 1

/-- State on entering an unmemoized item: the Subject is recorded in the Memory
Table before any recursion (the cycle breaker of section 4.4 step 2), and the
type triples of step 3 are emitted. -/
def enterState (base : String) (n : Node) (st : CState) : CState :=
  { memo := (nidOf n, subjectFor base n st.counter) :: st.memo,
    counter := counterAfter base n st.counter,
    triples := st.triples ++ typeTriples base (subjectFor base n st.counter) n }

/-- Modelled from the spec (section 4.4, Item Processor), one fuel level. Step 1:
a memoized node returns its Subject at once. Step 2: the Subject (itemid URI or
fresh anonymous identifier) is recorded in the Memory Table before any
recursion. Steps 3 to 5 emit the type triples and process the property pairs,
recursing into nested items through the previous fuel level. -/
def processStep (root : Node) (base : String)
    (rec : Node → CState → Option (Subject × CState)) (n : Node) (st : CState) :
    Option (Subject × CState) :=
  match lookupMemo st.memo (nidOf n) with
  | some s => some (s, st)
  | none =>
    match processPairsWith base rec (subjectFor base n st.counter) (vocabularyFor n)
        (propPairs root n) (enterState base n st) with
    | none => none
    | some st3 => some (subjectFor base n st.counter, st3)

/-- Modelled from the spec (section 4.4): the Item Processor, as primitive
recursion on a fuel bound; the termination theorem shows that a fuel of one
more than the element count of the document never runs out. -/
def process (root : Node) (base : String) : Nat → Node → CState → Option (Subject × CState)
  | 0 => fun _ _ => none
  | fuel + 1 => processStep root base (process root base fuel)

/-- Modelled from the spec (section 3): an item is top-level iff its node carries
itemscope but no itemprop. -/
def isTopLevel (n : Node) : Bool :=
  hasAttr n "itemscope" && !(hasAttr n "itemprop")

def topLevelItems (root : Node) : List Node :=
  (subnodes root).filter isTopLevel

def initState : CState :=
  { memo := [], counter := 0, triples := [] }

/-- Modelled from the spec (section 4.5): the driver runs the Item Processor over
the top-level items in document order, threading the shared state. -/
def convertItems (root : Node) (base : String) (fuel : Nat) :
    List Node → CState → Option CState
  | [], st => some st
  | t :: ts, st =>
    match process root base fuel t st with
    | none => none
    | some (_, st2) => convertItems root base fuel ts st2

def docFuel (root : Node) : Nat :=
  (subnodes root).length + 1

/-- Modelled from the spec (section 4.5, Conversion Driver): find the top-level
items and process each, returning the emitted triples. -/
def convert (root : Node) (base : String) : Option (List Triple) :=
  match convertItems root base (docFuel root) (topLevelItems root) initState with
  | none => none
  | some st => some st.triples

/-! Front-end models, embedded from pyMicrodata/__init__.py. -/

/-- RDF graph as the rdflib sink is used here: its list of triples. -/
structure Graph where
  triples : List Triple
deriving DecidableEq, Repr

/-- Python exceptions that the front-end control flow distinguishes. -/
inductive PyExc where
  | httpError (code : Nat) (msg : String)
  | attributeError
  | importError (msg : String)
  | generic (msg : String)
  | unboundLocal
deriving DecidableEq, Repr

def emptyGraph : Graph := ⟨[]⟩

def ns_micro_Error : String := "http://www.w3.org/2012/pyMicrodata/vocab#Error"

def dcterms_description : String := "http://purl.org/dc/terms/description"

def ns_micro_context : String := "http://www.w3.org/2012/pyMicrodata/vocab#context"

def ns_ht_Response : String := "http://www.w3.org/2006/http#Response"

def ns_ht_responseCode : String := "http://www.w3.org/2006/http#responseCode"

def ns_ht_Request : String := "http://www.w3.org/2006/http#Request"

def ns_ht_requestURI : String := "http://www.w3.org/2006/http#requestURI"

/-- Triples that _generate_error_graph adds (lines 145-172); the blank nodes of
the error report are modelled with fixed anonymous tags, which is all the
claims inspect. -/
def errorTriples (full_msg : String) (uri : Option String) (http_status : Option Nat) : List Triple :=
  [⟨.anon 100, rdf_type, Obj.val (.uriVal ns_micro_Error)⟩,
   ⟨.anon 100, dcterms_description, Obj.val (.plain full_msg)⟩] ++
  (match uri with
   | none => []
   | some u =>
      [⟨.anon 101, rdf_type, Obj.val (.uriVal ns_ht_Request)⟩,
       ⟨.anon 101, ns_ht_requestURI, Obj.val (.plain u)⟩]) ++
  (match http_status with
   | none => []
   | some code =>
      if code != 200 then
        [⟨.anon 102, rdf_type, Obj.val (.uriVal ns_ht_Response)⟩,
         ⟨.anon 102, ns_ht_responseCode, Obj.val (.uriVal ("http://www.w3.org/2006/http#" ++ toString code))⟩]
      else [])

/-- Model of pyMicrodata._generate_error_graph (lines 128-174). When pgraph is
None a fresh Graph is bound to retval (lines 135-136), but the bind calls at
lines 140-143 are made on pgraph itself, so a None pgraph raises
AttributeError before any triple is added. -/
def _generate_error_graph (pgraph : Option Graph) (full_msg : String)
    (uri : Option String) (http_status : Option Nat) : Except PyExc Graph :=
  let retval : Graph :=
    match pgraph with
    | none => emptyGraph
    | some g => g
  match pgraph with
  | none => .error .attributeError
  | some _ => .ok ⟨retval.triples ++ errorTriples full_msg uri http_status⟩

/-- Parsed document handed to graph_from_dom: either a null tree or a document
whose documentElement is the root node. -/
inductive DomTree where
  | null
  | doc (documentElement : Node)

/-- Model of pyMicrodata.graph_from_dom (lines 211-227): a null dom raises
AttributeError at the dom.documentElement access; otherwise a graph is created
when none was supplied and the conversion adds its triples to it. The
conversion core returns none only on fuel exhaustion, which the termination
theorem rules out. -/
def graph_from_dom (base : String) (dom : DomTree) (graph : Option Graph) : Except PyExc Graph :=
  match dom with
  | .null => .error .attributeError
  | .doc root =>
    let g : Graph :=
      match graph with
      | none => emptyGraph
      | some g0 => g0
    match convert root base with
    | none => .error (.generic "conversion out of fuel")
    | some ts => .ok ⟨g.triples ++ ts⟩

/-- Outcome of the _get_input call at line 243. -/
inductive OpenResult where
  | opened
  | httpFail (code : Nat) (msg : String)
  | otherFail (msg : String)
deriving DecidableEq

/-- Outcome of the html5lib import and parse at lines 262-270. -/
inductive ParseResult where
  | parsed (dom : DomTree)
  | importFail
  | parseFail (msg : String)

def excMsg : PyExc → String
  | .httpError code msg => "HTTP Error: " ++ toString code ++ " (" ++ msg ++ ")"
  | .attributeError => "AttributeError"
  | .importError msg => msg
  | .generic msg => msg
  | .unboundLocal => "UnboundLocalError"

/-- Status recorded by the outer handler of graph_from_source (lines 286-289). -/
def excStatus : PyExc → Option Nat
  | .importError _ => none
  | _ => some 500

/-- Model of pyMicrodata.graph_from_source (lines 229-292). The outcome of
opening the source and of parsing it are inputs of the model. The inner value
is what the body of the outer try block produces: each inner except clause
either re-raises (rdf_output false) or returns the value of
_generate_error_graph, and an exception raised inside an inner handler (such
as the AttributeError of _generate_error_graph on a None graph) propagates to
the outer except clause, which repeats the same choice; an exception raised
there propagates to the caller. -/
def graph_from_source (base name_ : String) (openRes : OpenResult) (parseRes : ParseResult)
    (graph : Option Graph) (rdf_output : Bool) : Except PyExc Graph :=
  let inner : Except PyExc Graph :=
    match openRes with
    | .httpFail code msg =>
        if !rdf_output then .error (.httpError code msg)
        else _generate_error_graph graph ("HTTP Error: " ++ toString code ++ " (" ++ msg ++ ")")
               (some name_) (some code)
    | .otherFail msg =>
        if !rdf_output then .error (.generic msg)
        else _generate_error_graph graph msg (some name_) (some 500)
    | .opened =>
        match parseRes with
        | .importFail => .error (.importError "HTML5 parser not available.")
        | .parseFail msg =>
            if !rdf_output then .error (.generic msg)
            else _generate_error_graph graph msg (some name_) (some 400)
        | .parsed dom => graph_from_dom base dom graph
  match inner with
  | .ok g => .ok g
  | .error e =>
      if !rdf_output then .error e
      else _generate_error_graph graph (excMsg e) (some name_) (excStatus e)

/-- Model of pyMicrodata._validate_output_format (lines 198-206). -/
def _validate_output_format (outputFormat : String) : String :=
  if outputFormat ∈ ["turtle", "n3", "xml", "pretty-xml", "nt", "json-ld"] then outputFormat
  else "turtle"

/-- Result of the CGI entry point: the normal serialized-graph response with its
Content-Type header, the HTTPError page, or the generic exception page. -/
inductive CGIResult where
  | okPage (payload : String)
  | httpErrorPage (code : Nat) (msg : String)
  | genericErrorPage (output_format : String)
deriving DecidableEq, Repr

/-- Value of the local variable outputFormat of process_uri at the moment line
387 reads it: the assignment on that very line makes outputFormat local to the
function, and no assignment precedes the read, so the local is unbound. The
parameter of the function is named output_format. -/
def outputFormatLocal : Option String := none

/-- Content-Type header chosen at lines 388-395. -/
def contentTypeFor (output_format : String) : String :=
  if output_format == "n3" then "Content-Type: text/rdf+n3; charset=utf-8\n"
  else if output_format == "nt" || output_format == "turtle" then
    "Content-Type: text/turtle; charset=utf-8\n"
  else if output_format == "json-ld" || output_format == "json" then
    "Content-Type: application/ld+json; charset=utf-8\n"
  else "Content-Type: application/rdf+xml; charset=utf-8\n"

/-- Model of the try block of process_uri (lines 386-403). Reading the unbound
local outputFormat raises UnboundLocalError before anything else runs; the
remaining statements model the normal path, with the outcome of the
rdf_from_source call abstracted as an input. -/
def process_uri_try (output_format : String) (rdf_result : Except PyExc String) :
    Except PyExc String :=
  match outputFormatLocal with
  | none => .error .unboundLocal
  | some v =>
    let _ := _validate_output_format v
    let retval := contentTypeFor output_format
    match rdf_result with
    | .error e => .error e
    | .ok g => .ok (retval ++ "\n" ++ g)

/-- Model of process_uri (lines 338-463): the try block, the HTTPError handler
(lines 404-418) and the generic handler (lines 419-462). -/
def process_uri (output_format : String) (rdf_result : Except PyExc String) : CGIResult :=
  match process_uri_try output_format rdf_result with
  | .ok s => .okPage s
  | .error (.httpError code msg) => .httpErrorPage code msg
  | .error _ => .genericErrorPage output_format

/-! Notions used by the statements and proofs. -/

/-- Extension order on Memory Tables: every recorded binding is preserved. -/
def memoExt (m m2 : List (Nat × Subject)) : Prop :=
  ∀ k v, lookupMemo m k = some v → lookupMemo m2 k = some v

/-- Identities of all element nodes of the document. -/
def elemIds (root : Node) : List Nat :=
  (subnodes root).map nidOf

/-- Count of element identities not yet in the Memory Table: the measure that
each entry into an unmemoized item strictly decreases. -/
def unmemo (root : Node) (m : List (Nat × Subject)) : Nat :=
  ((elemIds root).filter (fun i => (lookupMemo m i).isNone)).length

/-- All anonymous identifiers recorded in the Memory Table are below the
counter. -/
def anonsBelow (m : List (Nat × Subject)) (c : Nat) : Prop :=
  ∀ k i, lookupMemo m k = some (.anon i) → i < c

/-- No anonymous identifier is shared by two different items. -/
def anonInj (m : List (Nat × Subject)) : Prop :=
  ∀ k k2 i, lookupMemo m k = some (.anon i) → lookupMemo m k2 = some (.anon i) → k = k2

/-- Every memoized Subject agrees with the itemid discipline of its node: the
absolutized itemid URI when one resolves, an anonymous identifier otherwise. -/
def subjOk (root : Node) (base : String) (m : List (Nat × Subject)) : Prop :=
  ∀ n, n ∈ subnodes root → ∀ s, lookupMemo m (nidOf n) = some s →
    (∀ u, itemidSubject base n = some u → s = .uri u) ∧
    (itemidSubject base n = none → ∃ i, s = .anon i)

/-- Every emitted triple has some memoized item Subject as its subject. -/
def triplesOk (m : List (Nat × Subject)) (ts : List Triple) : Prop :=
  ∀ t ∈ ts, ∃ k, lookupMemo m k = some t.subj

/-- Invariant bundle of the conversion state. -/
structure Inv (root : Node) (base : String) (st : CState) : Prop where
  anons : anonsBelow st.memo st.counter
  inj : anonInj st.memo
  subjs : subjOk root base st.memo
  trips : triplesOk st.memo st.triples

/-- Renaming of anonymous identifiers on Subjects. -/
def renameSubject (f : Nat → Nat) : Subject → Subject
  | .uri u => .uri u
  | .anon i => .anon (f i)

/-- Renaming of anonymous identifiers on objects. -/
def renameObj (f : Nat → Nat) : Obj → Obj
  | .subj s => .subj (renameSubject f s)
  | .val v => .val v

/-- Renaming of anonymous identifiers on triples. -/
def renameTriple (f : Nat → Nat) (t : Triple) : Triple :=
  ⟨renameSubject f t.subj, t.pred, renameObj f t.obj⟩

/-! Concrete documents used by the witnesses. -/

/-- Item with itemscope, itemtype and itemid, one meta property. -/
def exThing : Node :=
  .elem 1 "div" [("itemscope", ""), ("itemtype", "http://schema.org/Thing"),
                 ("itemid", "http://example.org/thing1")]
    [.elem 2 "meta" [("itemprop", "name"), ("content", "Widget")] []]

/-- State after processing exThing once. -/
def exThingState : CState :=
  { memo := [(1, .uri "http://example.org/thing1")], counter := 0,
    triples :=
      [⟨.uri "http://example.org/thing1", rdf_type, Obj.val (.uriVal "http://schema.org/Thing")⟩,
       ⟨.uri "http://example.org/thing1", "http://schema.org/name", Obj.val (.plain "Widget")⟩] }

/-- Document with markup but no microdata annotations at all. -/
def exPlain : Node :=
  .elem 1 "html" [] [.elem 2 "div" [("class", "x")] [.text "hello"]]

/-! Basic lemmas about the Memory Table and the unmemoized-count measure. -/

theorem lookupMemo_cons_self (m : List (Nat × Subject)) (k : Nat) (v : Subject) :
    lookupMemo ((k, v) :: m) k = some v := by
  simp [lookupMemo]

theorem lookupMemo_cons_ne (m : List (Nat × Subject)) {k k2 : Nat} (v : Subject)
    (h : k2 ≠ k) : lookupMemo ((k, v) :: m) k2 = lookupMemo m k2 := by
  simp [lookupMemo, h]

theorem memoExt_refl (m : List (Nat × Subject)) : memoExt m m :=
  fun _ _ h => h

theorem memoExt_trans {a b c : List (Nat × Subject)} (h1 : memoExt a b) (h2 : memoExt b c) :
    memoExt a c :=
  fun k v h => h2 k v (h1 k v h)

theorem memoExt_cons {m : List (Nat × Subject)} {k : Nat} (v : Subject)
    (h : lookupMemo m k = none) : memoExt m ((k, v) :: m) := by
  intro k2 v2 h2
  by_cases hk : k2 = k
  · subst hk
    rw [h] at h2
    exact absurd h2 (by simp)
  · rw [lookupMemo_cons_ne m v hk]
    exact h2

theorem filter_length_mono {l : List Nat} {p q : Nat → Bool}
    (h : ∀ a ∈ l, q a = true → p a = true) :
    (l.filter q).length ≤ (l.filter p).length := by
  induction l with
  | nil => simp
  | cons a t ih =>
    have ht : ∀ b ∈ t, q b = true → p b = true := fun b hb => h b (List.mem_cons_of_mem a hb)
    by_cases hq : q a = true
    · have hp : p a = true := h a (List.mem_cons_self a t) hq
      simp only [List.filter_cons, hq, hp, if_true, List.length_cons]
      exact Nat.succ_le_succ (ih ht)
    · simp only [List.filter_cons, hq, if_false]
      by_cases hp : p a = true
      · simp only [hp, if_true, List.length_cons]
        exact Nat.le_succ_of_le (ih ht)
      · simp only [hp, if_false]
        exact ih ht

theorem filter_length_strict {l : List Nat} {p q : Nat → Bool} {a0 : Nat}
    (h : ∀ a ∈ l, q a = true → p a = true) (ha : a0 ∈ l) (hq : q a0 = false)
    (hp : p a0 = true) :
    (l.filter q).length < (l.filter p).length := by
  induction l with
  | nil => cases ha
  | cons a t ih =>
    have ht : ∀ b ∈ t, q b = true → p b = true := fun b hb => h b (List.mem_cons_of_mem a hb)
    rcases List.mem_cons.mp ha with rfl | hta
    · simp only [List.filter_cons, hq, hp, if_true, if_false, Bool.false_eq_true,
        List.length_cons]
      exact Nat.lt_succ_of_le (filter_length_mono ht)
    · by_cases hqa : q a = true
      · have hpa : p a = true := h a (List.mem_cons_self a t) hqa
        simp only [List.filter_cons, hqa, hpa, if_true, List.length_cons]
        exact Nat.succ_lt_succ (ih ht hta)
      · simp only [List.filter_cons, hqa, if_false]
        by_cases hpa : p a = true
        · simp only [hpa, if_true, List.length_cons]
          exact Nat.lt_succ_of_lt (ih ht hta)
        · simp only [hpa, if_false]
          exact ih ht hta

theorem unmemo_le (root : Node) (m : List (Nat × Subject)) :
    unmemo root m ≤ (subnodes root).length := by
  unfold unmemo
  calc ((elemIds root).filter _).length ≤ (elemIds root).length := List.length_filter_le _ _
    _ = (subnodes root).length := by simp [elemIds]

theorem unmemo_mono {root : Node} {m m2 : List (Nat × Subject)} (h : memoExt m m2) :
    unmemo root m2 ≤ unmemo root m := by
  unfold unmemo
  refine filter_length_mono ?_
  intro i _ hi
  cases hm : lookupMemo m i with
  | none => simp
  | some v => rw [h i v hm] at hi; simp at hi

theorem unmemo_insert_lt {root : Node} {m : List (Nat × Subject)} {n : Node} (s : Subject)
    (hn : n ∈ subnodes root) (h : lookupMemo m (nidOf n) = none) :
    unmemo root ((nidOf n, s) :: m) < unmemo root m := by
  unfold unmemo
  have himp : ∀ i ∈ elemIds root,
      ((lookupMemo ((nidOf n, s) :: m) i).isNone) = true → ((lookupMemo m i).isNone) = true := by
    intro i _ hi
    cases hm : lookupMemo m i with
    | none => simp
    | some v => rw [(memoExt_cons s h) i v hm] at hi; simp at hi
  have hmem : nidOf n ∈ elemIds root := List.mem_map_of_mem nidOf hn
  have hq : ((lookupMemo ((nidOf n, s) :: m) (nidOf n)).isNone) = false := by
    rw [lookupMemo_cons_self]; rfl
  have hp : ((lookupMemo m (nidOf n)).isNone) = true := by
    rw [h]; rfl
  exact filter_length_strict himp hmem hq hp

/-! Closure of the element set of a document under the traversals that feed the
Item Processor: descendants, property elements and id lookup. -/

mutual

theorem subnodes_trans : ∀ (n m : Node), m ∈ subnodes n → ∀ x ∈ subnodes m, x ∈ subnodes n
  | .text _, m, hm => by simp [subnodes] at hm
  | .elem i t a cs, m, hm => by
      intro x hx
      rw [subnodes] at hm
      rcases List.mem_cons.mp hm with h1 | h1
      · subst h1; exact hx
      · rw [subnodes]
        exact List.mem_cons_of_mem _ (subnodesL_trans cs m h1 x hx)

theorem subnodesL_trans : ∀ (cs : List Node) (m : Node), m ∈ subnodesL cs →
    ∀ x ∈ subnodes m, x ∈ subnodesL cs
  | [], m, hm => by simp [subnodesL] at hm
  | c :: cs, m, hm => by
      intro x hx
      rw [subnodesL] at hm ⊢
      rcases List.mem_append.mp hm with h1 | h1
      · exact List.mem_append_left _ (subnodes_trans c m h1 x hx)
      · exact List.mem_append_right _ (subnodesL_trans cs m h1 x hx)

end

mutual

theorem propElemsOf_sub : ∀ (n : Node), ∀ x ∈ propElemsOf n, x ∈ subnodes n
  | .text _, x, hx => by simp [propElemsOf] at hx
  | .elem i t a cs, x, hx => by
      rw [propElemsOf] at hx
      rw [subnodes]
      rcases List.mem_append.mp hx with h1 | h1
      · split at h1
        · rcases List.mem_singleton.mp h1 with rfl
          exact List.mem_cons_self _ _
        · simp at h1
      · split at h1
        · simp at h1
        · exact List.mem_cons_of_mem _ (propElemsL_sub cs x h1)

theorem propElemsL_sub : ∀ (cs : List Node), ∀ x ∈ propElemsL cs, x ∈ subnodesL cs
  | [], x, hx => by simp [propElemsL] at hx
  | c :: cs, x, hx => by
      rw [propElemsL] at hx
      rw [subnodesL]
      rcases List.mem_append.mp hx with h1 | h1
      · exact List.mem_append_left _ (propElemsOf_sub c x h1)
      · exact List.mem_append_right _ (propElemsL_sub cs x h1)

end

theorem getById_mem {root : Node} {s : String} {e : Node} (h : getById root s = some e) :
    e ∈ subnodes root :=
  List.mem_of_find?_eq_some h

theorem subnodesL_children_sub (n : Node) : ∀ x ∈ subnodesL (childrenOf n), x ∈ subnodes n := by
  intro x hx
  cases n with
  | text s => simp [childrenOf, subnodesL] at hx
  | elem i t a cs =>
    rw [subnodes]
    exact List.mem_cons_of_mem _ hx

theorem itemProps_sub {root n : Node} (hn : n ∈ subnodes root) :
    ∀ x ∈ itemProps root n, x ∈ subnodes root := by
  intro x hx
  rw [itemProps] at hx
  rcases List.mem_append.mp hx with h1 | h1
  · have hxn : x ∈ subnodes n :=
      subnodesL_children_sub n x (propElemsL_sub (childrenOf n) x h1)
    exact subnodes_trans root n hn x hxn
  · rw [itemrefElems] at h1
    cases hr : getAttr n "itemref" with
    | none => rw [hr] at h1; simp at h1
    | some rv =>
      rw [hr] at h1
      rcases List.mem_flatMap.mp h1 with ⟨e, he, hxe⟩
      rcases List.mem_filterMap.mp he with ⟨idstr, _, hid⟩
      have heRoot : e ∈ subnodes root := getById_mem hid
      exact subnodes_trans root e heRoot x (propElemsOf_sub e x hxe)

theorem propPairs_fst_sub {root n : Node} (hn : n ∈ subnodes root) :
    ∀ pt ∈ propPairs root n, pt.1 ∈ subnodes root := by
  intro pt hpt
  rw [propPairs] at hpt
  rcases List.mem_flatMap.mp hpt with ⟨p, hp, hmem⟩
  rcases List.mem_map.mp hmem with ⟨tok, _, hEq⟩
  have : pt.1 = p := by rw [← hEq]
  rw [this]
  exact itemProps_sub hn p hp

theorem topLevelItems_sub (root : Node) : ∀ x ∈ topLevelItems root, x ∈ subnodes root := by
  intro x hx
  exact List.mem_of_mem_filter hx

/-! Termination: with enough fuel the Item Processor and the driver always
return a result, cyclic itemref chains included, because every entry into an
unmemoized item strictly decreases the unmemoized count and re-entry into a
memoized item returns at once. -/

theorem pairsWith_total (root : Node) (base : String) (B : Nat)
    (rec : Node → CState → Option (Subject × CState))
    (hrec : ∀ n st, n ∈ subnodes root → unmemo root st.memo < B →
      ∃ s st2, rec n st = some (s, st2) ∧ memoExt st.memo st2.memo ∧
        unmemo root st2.memo ≤ unmemo root st.memo) :
    ∀ (pairs : List (Node × String)) (subj : Subject) (vocab : Option String) (st : CState),
      (∀ pt ∈ pairs, pt.1 ∈ subnodes root) → unmemo root st.memo < B →
      ∃ st2, processPairsWith base rec subj vocab pairs st = some st2 ∧
        memoExt st.memo st2.memo ∧ unmemo root st2.memo ≤ unmemo root st.memo := by
  intro pairs
  induction pairs with
  | nil =>
    intro subj vocab st _ _
    exact ⟨st, rfl, memoExt_refl _, Nat.le_refl _⟩
  | cons pt rest ih =>
    obtain ⟨p, tok⟩ := pt
    intro subj vocab st hmem hlt
    have hrest : ∀ x ∈ rest, x.1 ∈ subnodes root := fun x hx => hmem x (List.mem_cons_of_mem _ hx)
    rw [processPairsWith]
    cases hpred : predicate_for base vocab tok with
    | none => exact ih subj vocab st hrest hlt
    | some pred =>
      cases hscope : hasAttr p "itemscope" with
      | false =>
        simp only [hscope, Bool.false_eq_true, if_false]
        obtain ⟨st3, heq3, hext3, hle3⟩ :=
          ih subj vocab { st with triples := st.triples ++ [⟨subj, pred, Obj.val (extractValue base p)⟩] }
            hrest hlt
        exact ⟨st3, heq3, hext3, hle3⟩
      | true =>
        simp only [hscope, if_true]
        obtain ⟨ns, st2, heq2, hext2, hle2⟩ :=
          hrec p st (hmem (p, tok) (List.mem_cons_self _ _)) hlt
        rw [heq2]
        have hlt2 : unmemo root st2.memo < B := Nat.lt_of_le_of_lt hle2 hlt
        obtain ⟨st3, heq3, hext3, hle3⟩ :=
          ih subj vocab { st2 with triples := st2.triples ++ [⟨subj, pred, Obj.subj ns⟩] }
            hrest hlt2
        exact ⟨st3, heq3, memoExt_trans hext2 hext3, Nat.le_trans hle3 hle2⟩

theorem process_total (root : Node) (base : String) :
    ∀ (fuel : Nat) (n : Node) (st : CState), n ∈ subnodes root →
      unmemo root st.memo < fuel →
      ∃ s st2, process root base fuel n st = some (s, st2) ∧ memoExt st.memo st2.memo ∧
        unmemo root st2.memo ≤ unmemo root st.memo := by
  intro fuel
  induction fuel with
  | zero => intro n st _ h; exact absurd h (Nat.not_lt_zero _)
  | succ f ih =>
    intro n st hn hlt
    rw [process, processStep]
    cases hmemo : lookupMemo st.memo (nidOf n) with
    | some s => exact ⟨s, st, rfl, memoExt_refl _, Nat.le_refl _⟩
    | none =>
      have hext2 : memoExt st.memo (enterState base n st).memo := by
        rw [enterState]
        exact memoExt_cons _ hmemo
      have hlt2 : unmemo root (enterState base n st).memo < unmemo root st.memo := by
        rw [enterState]
        exact unmemo_insert_lt _ hn hmemo
      have hltf : unmemo root (enterState base n st).memo < f :=
        Nat.lt_of_lt_of_le hlt2 (Nat.le_of_lt_succ hlt)
      obtain ⟨st3, heq3, hext3, hle3⟩ :=
        pairsWith_total root base f (process root base f) (ih) (propPairs root n)
          (subjectFor base n st.counter) (vocabularyFor n) (enterState base n st)
          (propPairs_fst_sub hn) hltf
      rw [heq3]
      exact ⟨subjectFor base n st.counter, st3, rfl, memoExt_trans hext2 hext3,
        Nat.le_trans hle3 (Nat.le_of_lt hlt2)⟩

theorem convertItems_total (root : Node) (base : String) (fuel : Nat) :
    ∀ (items : List Node) (st : CState), (∀ x ∈ items, x ∈ subnodes root) →
      unmemo root st.memo < fuel →
      ∃ st2, convertItems root base fuel items st = some st2 := by
  intro items
  induction items with
  | nil => intro st _ _; exact ⟨st, rfl⟩
  | cons t ts ih =>
    intro st hmem hlt
    obtain ⟨s, st2, heq, _, hle⟩ :=
      process_total root base fuel t st (hmem t (List.mem_cons_self _ _)) hlt
    rw [convertItems, heq]
    exact ih st2 (fun x hx => hmem x (List.mem_cons_of_mem _ hx)) (Nat.lt_of_le_of_lt hle hlt)

/-- C1: for every input document, cyclic itemref chains included, the conversion
terminates and produces a finite triple list; memoizing the item Subject in the
Memory Table before recursing into properties makes re-entry into an item
already being processed return its Subject instead of looping, so the fuel
bound of one more than the element count never runs out. -/
theorem c1_conversion_terminates (root : Node) (base : String) :
    ∃ ts : List Triple, convert root base = some ts := by
  have hlt : unmemo root initState.memo < docFuel root := by
    have h1 : unmemo root initState.memo ≤ (subnodes root).length := unmemo_le root _
    rw [docFuel]
    omega
  obtain ⟨st2, heq⟩ :=
    convertItems_total root base (docFuel root) (topLevelItems root) initState
      (topLevelItems_sub root) hlt
  rw [convert, heq]
  exact ⟨st2.triples, rfl⟩

/-! Memoization: a successful run only extends the Memory Table and records the
returned Subject for the processed node. -/

theorem pairsWith_memoExt (base : String) (rec : Node → CState → Option (Subject × CState))
    (hrec : ∀ n st s st2, rec n st = some (s, st2) → memoExt st.memo st2.memo) :
    ∀ (pairs : List (Node × String)) (subj : Subject) (vocab : Option String)
      (st st2 : CState), processPairsWith base rec subj vocab pairs st = some st2 →
      memoExt st.memo st2.memo := by
  intro pairs
  induction pairs with
  | nil =>
    intro subj vocab st st2 h
    rw [processPairsWith] at h
    cases h
    exact memoExt_refl _
  | cons pt rest ih =>
    obtain ⟨p, tok⟩ := pt
    intro subj vocab st st2 h
    rw [processPairsWith] at h
    cases hpred : predicate_for base vocab tok with
    | none =>
      rw [hpred] at h
      exact ih subj vocab st st2 h
    | some pred =>
      rw [hpred] at h
      cases hscope : hasAttr p "itemscope" with
      | false =>
        simp only [hscope, Bool.false_eq_true, if_false] at h
        exact ih subj vocab
          { st with triples := st.triples ++ [⟨subj, pred, Obj.val (extractValue base p)⟩] } st2 h
      | true =>
        simp only [hscope, if_true] at h
        cases hrecEq : rec p st with
        | none => rw [hrecEq] at h; cases h
        | some r =>
          obtain ⟨ns, st0⟩ := r
          rw [hrecEq] at h
          exact memoExt_trans (hrec p st ns st0 hrecEq)
            (ih subj vocab { st0 with triples := st0.triples ++ [⟨subj, pred, Obj.subj ns⟩] } st2 h)

theorem process_memo (root : Node) (base : String) :
    ∀ (fuel : Nat) (n : Node) (st : CState) (s : Subject) (st2 : CState),
      process root base fuel n st = some (s, st2) →
      memoExt st.memo st2.memo ∧ lookupMemo st2.memo (nidOf n) = some s := by
  intro fuel
  induction fuel with
  | zero =>
    intro n st s st2 h
    rw [process] at h
    cases h
  | succ f ih =>
    intro n st s st2 h
    rw [process, processStep] at h
    cases hmemo : lookupMemo st.memo (nidOf n) with
    | some s0 =>
      rw [hmemo] at h
      cases h
      exact ⟨memoExt_refl _, hmemo⟩
    | none =>
      rw [hmemo] at h
      cases hp : processPairsWith base (process root base f) (subjectFor base n st.counter)
          (vocabularyFor n) (propPairs root n) (enterState base n st) with
      | none => rw [hp] at h; cases h
      | some st3 =>
        rw [hp] at h
        cases h
        have hext23 : memoExt (enterState base n st).memo st2.memo :=
          pairsWith_memoExt base (process root base f)
            (fun n0 st0 s0 st02 hh => (ih n0 st0 s0 st02 hh).1) _ _ _ _ _ hp
        have hself : lookupMemo (enterState base n st).memo (nidOf n) =
            some (subjectFor base n st.counter) := by
          rw [enterState]
          exact lookupMemo_cons_self _ _ _
        have hext12 : memoExt st.memo (enterState base n st).memo := by
          rw [enterState]
          exact memoExt_cons _ hmemo
        exact ⟨memoExt_trans hext12 hext23, hext23 _ _ hself⟩

/-- C2: within one run, a second call of the Item Processor on an already
processed tree node returns the memoized Subject and leaves the state, its
emitted triples included, unchanged, so the triples of an item are emitted
exactly once however often the item is reached again. -/
theorem c2_item_processor_idempotent (root : Node) (base : String) (fuel fuel2 : Nat)
    (n : Node) (st : CState) (s : Subject) (st2 : CState)
    (h : process root base fuel n st = some (s, st2)) (h2 : 0 < fuel2) :
    process root base fuel2 n st2 = some (s, st2) := by
  obtain ⟨-, hlook⟩ := process_memo root base fuel n st s st2 h
  obtain ⟨f, rfl⟩ : ∃ f, fuel2 = f + 1 := ⟨fuel2 - 1, by omega⟩
  rw [process, processStep, hlook]

/-- Witness for C2 on a concrete document: processing the exThing item once
yields its state, and a second call returns the same Subject and state. -/
theorem c2_item_processor_idempotent_witness :
    process exThing "http://e.org/" 2 exThing initState =
      some (.uri "http://example.org/thing1", exThingState) ∧
    process exThing "http://e.org/" 2 exThing exThingState =
      some (.uri "http://example.org/thing1", exThingState) :=
  ⟨by decide,
   c2_item_processor_idempotent exThing "http://e.org/" 2 2 exThing initState
     (.uri "http://example.org/thing1") exThingState (by decide) (by decide)⟩

/-! Soundness of the subject discipline: itemid items are memoized under their
URI, items without itemid under a fresh anonymous identifier never shared with
another item, and every emitted triple has a memoized item Subject. -/

theorem nid_inj {root : Node} (hnd : (elemIds root).Nodup) {a b : Node}
    (ha : a ∈ subnodes root) (hb : b ∈ subnodes root) (h : nidOf a = nidOf b) : a = b :=
  List.inj_on_of_nodup_map hnd ha hb h

theorem typeTriples_subj (base : String) (s : Subject) (n : Node) :
    ∀ t ∈ typeTriples base s n, t.subj = s := by
  intro t ht
  rw [typeTriples] at ht
  cases hA : getAttr n "itemtype" with
  | none => rw [hA] at ht; cases ht
  | some tv =>
    rw [hA] at ht
    rcases List.mem_filterMap.mp ht with ⟨tok, _, htok⟩
    cases hr : resolveURI base tok with
    | none => rw [hr] at htok; cases htok
    | some u => rw [hr] at htok; cases htok; rfl

theorem counterAfter_ge (base : String) (n : Node) (c : Nat) : c ≤ counterAfter base n c := by
  rw [counterAfter]
  cases itemidSubject base n <;> simp

theorem enterState_inv {root n : Node} {base : String} (hnd : (elemIds root).Nodup)
    {st : CState} (hn : n ∈ subnodes root) (hInv : Inv root base st)
    (hmemo : lookupMemo st.memo (nidOf n) = none) :
    Inv root base (enterState base n st) := by
  constructor
  case anons =>
    intro k i hk
    show i < counterAfter base n st.counter
    by_cases hkn : k = nidOf n
    · subst hkn
      rw [show (enterState base n st).memo =
            (nidOf n, subjectFor base n st.counter) :: st.memo from rfl,
          lookupMemo_cons_self] at hk
      cases hid : itemidSubject base n with
      | some u => rw [subjectFor, hid] at hk; cases hk
      | none =>
        rw [subjectFor, hid] at hk
        injection hk with hk2
        injection hk2 with hk3
        rw [counterAfter, hid, ← hk3]
        exact Nat.lt_succ_self _
    · rw [show (enterState base n st).memo =
            (nidOf n, subjectFor base n st.counter) :: st.memo from rfl,
          lookupMemo_cons_ne _ _ hkn] at hk
      exact Nat.lt_of_lt_of_le (hInv.anons k i hk) (counterAfter_ge base n st.counter)
  case inj =>
    intro k k2 i hk hk2
    rw [show (enterState base n st).memo =
          (nidOf n, subjectFor base n st.counter) :: st.memo from rfl] at hk hk2
    by_cases hkn : k = nidOf n <;> by_cases hk2n : k2 = nidOf n
    · rw [hkn, hk2n]
    · subst hkn
      rw [lookupMemo_cons_self] at hk
      rw [lookupMemo_cons_ne _ _ hk2n] at hk2
      cases hid : itemidSubject base n with
      | some u => rw [subjectFor, hid] at hk; cases hk
      | none =>
        rw [subjectFor, hid] at hk
        injection hk with hkx
        injection hkx with hky
        have := hInv.anons k2 i hk2
        omega
    · subst hk2n
      rw [lookupMemo_cons_self] at hk2
      rw [lookupMemo_cons_ne _ _ hkn] at hk
      cases hid : itemidSubject base n with
      | some u => rw [subjectFor, hid] at hk2; cases hk2
      | none =>
        rw [subjectFor, hid] at hk2
        injection hk2 with hkx
        injection hkx with hky
        have := hInv.anons k i hk
        omega
    · rw [lookupMemo_cons_ne _ _ hkn] at hk
      rw [lookupMemo_cons_ne _ _ hk2n] at hk2
      exact hInv.inj k k2 i hk hk2
  case subjs =>
    intro n2 hn2 s2 hs2
    rw [show (enterState base n st).memo =
          (nidOf n, subjectFor base n st.counter) :: st.memo from rfl] at hs2
    by_cases hq : nidOf n2 = nidOf n
    · have hn2n : n2 = n := nid_inj hnd hn2 hn hq
      subst hn2n
      rw [lookupMemo_cons_self] at hs2
      injection hs2 with hs3
      constructor
      · intro u hu
        rw [← hs3, subjectFor, hu]
      · intro hnone
        rw [← hs3, subjectFor, hnone]
        exact ⟨st.counter, rfl⟩
    · rw [lookupMemo_cons_ne _ _ hq] at hs2
      exact hInv.subjs n2 hn2 s2 hs2
  case trips =>
    intro t ht
    rw [show (enterState base n st).triples =
          st.triples ++ typeTriples base (subjectFor base n st.counter) n from rfl] at ht
    rcases List.mem_append.mp ht with h1 | h1
    · obtain ⟨k, hk⟩ := hInv.trips t h1
      refine ⟨k, ?_⟩
      rw [show (enterState base n st).memo =
            (nidOf n, subjectFor base n st.counter) :: st.memo from rfl]
      exact (memoExt_cons _ hmemo) k _ hk
    · refine ⟨nidOf n, ?_⟩
      rw [typeTriples_subj base _ n t h1]
      rw [show (enterState base n st).memo =
            (nidOf n, subjectFor base n st.counter) :: st.memo from rfl]
      exact lookupMemo_cons_self _ _ _

theorem pairsWith_sound (root : Node) (base : String)
    (rec : Node → CState → Option (Subject × CState))
    (hrec : ∀ n st s st2, n ∈ subnodes root → Inv root base st → rec n st = some (s, st2) →
      Inv root base st2 ∧ memoExt st.memo st2.memo) :
    ∀ (pairs : List (Node × String)) (subj : Subject) (vocab : Option String)
      (st st2 : CState),
      (∀ pt ∈ pairs, pt.1 ∈ subnodes root) → Inv root base st →
      (∃ k, lookupMemo st.memo k = some subj) →
      processPairsWith base rec subj vocab pairs st = some st2 →
      Inv root base st2 ∧ memoExt st.memo st2.memo := by
  intro pairs
  induction pairs with
  | nil =>
    intro subj vocab st st2 _ hInv _ h
    rw [processPairsWith] at h
    cases h
    exact ⟨hInv, memoExt_refl _⟩
  | cons pt rest ih =>
    obtain ⟨p, tok⟩ := pt
    intro subj vocab st st2 hmem hInv hsubj h
    have hrest : ∀ x ∈ rest, x.1 ∈ subnodes root := fun x hx => hmem x (List.mem_cons_of_mem _ hx)
    rw [processPairsWith] at h
    cases hpred : predicate_for base vocab tok with
    | none =>
      rw [hpred] at h
      exact ih subj vocab st st2 hrest hInv hsubj h
    | some pred =>
      rw [hpred] at h
      cases hscope : hasAttr p "itemscope" with
      | false =>
        simp only [hscope, Bool.false_eq_true, if_false] at h
        have hInv2 : Inv root base
            { st with triples := st.triples ++ [⟨subj, pred, Obj.val (extractValue base p)⟩] } := by
          refine ⟨hInv.anons, hInv.inj, hInv.subjs, ?_⟩
          intro t ht
          rcases List.mem_append.mp ht with h1 | h1
          · exact hInv.trips t h1
          · rcases List.mem_singleton.mp h1 with rfl
            exact hsubj
        exact ih subj vocab
          { st with triples := st.triples ++ [⟨subj, pred, Obj.val (extractValue base p)⟩] }
          st2 hrest hInv2 hsubj h
      | true =>
        simp only [hscope, if_true] at h
        cases hrecEq : rec p st with
        | none => rw [hrecEq] at h; cases h
        | some r =>
          obtain ⟨ns, st0⟩ := r
          rw [hrecEq] at h
          obtain ⟨hInv0, hext0⟩ :=
            hrec p st ns st0 (hmem (p, tok) (List.mem_cons_self _ _)) hInv hrecEq
          obtain ⟨k, hk⟩ := hsubj
          have hsubj0 : ∃ k, lookupMemo st0.memo k = some subj := ⟨k, hext0 k subj hk⟩
          have hInv1 : Inv root base
              { st0 with triples := st0.triples ++ [⟨subj, pred, Obj.subj ns⟩] } := by
            refine ⟨hInv0.anons, hInv0.inj, hInv0.subjs, ?_⟩
            intro t ht
            rcases List.mem_append.mp ht with h1 | h1
            · exact hInv0.trips t h1
            · rcases List.mem_singleton.mp h1 with rfl
              exact hsubj0
          obtain ⟨hInv2, hext2⟩ := ih subj vocab _ st2 hrest hInv1 hsubj0 h
          exact ⟨hInv2, memoExt_trans hext0 hext2⟩

theorem process_sound (root : Node) (base : String) (hnd : (elemIds root).Nodup) :
    ∀ (fuel : Nat) (n : Node) (st : CState) (s : Subject) (st2 : CState),
      n ∈ subnodes root → Inv root base st →
      process root base fuel n st = some (s, st2) →
      Inv root base st2 ∧ memoExt st.memo st2.memo := by
  intro fuel
  induction fuel with
  | zero =>
    intro n st s st2 _ _ h
    rw [process] at h
    cases h
  | succ f ih =>
    intro n st s st2 hn hInv h
    rw [process, processStep] at h
    cases hmemo : lookupMemo st.memo (nidOf n) with
    | some s0 =>
      rw [hmemo] at h
      cases h
      exact ⟨hInv, memoExt_refl _⟩
    | none =>
      rw [hmemo] at h
      cases hp : processPairsWith base (process root base f) (subjectFor base n st.counter)
          (vocabularyFor n) (propPairs root n) (enterState base n st) with
      | none => rw [hp] at h; cases h
      | some st3 =>
        rw [hp] at h
        cases h
        have hInv2 : Inv root base (enterState base n st) :=
          enterState_inv hnd hn hInv hmemo
        have hsubj2 : ∃ k, lookupMemo (enterState base n st).memo k =
            some (subjectFor base n st.counter) := by
          refine ⟨nidOf n, ?_⟩
          rw [show (enterState base n st).memo =
                (nidOf n, subjectFor base n st.counter) :: st.memo from rfl]
          exact lookupMemo_cons_self _ _ _
        obtain ⟨hInv3, hext3⟩ :=
          pairsWith_sound root base (process root base f)
            (fun n0 st0 s0 st02 hm0 hI0 hh => ih n0 st0 s0 st02 hm0 hI0 hh)
            (propPairs root n) (subjectFor base n st.counter) (vocabularyFor n)
            (enterState base n st) st2 (propPairs_fst_sub hn) hInv2 hsubj2 hp
        have hext12 : memoExt st.memo (enterState base n st).memo := by
          rw [show (enterState base n st).memo =
                (nidOf n, subjectFor base n st.counter) :: st.memo from rfl]
          exact memoExt_cons _ hmemo
        exact ⟨hInv3, memoExt_trans hext12 hext3⟩

theorem convertItems_sound (root : Node) (base : String) (hnd : (elemIds root).Nodup)
    (fuel : Nat) :
    ∀ (items : List Node) (st st2 : CState), (∀ x ∈ items, x ∈ subnodes root) →
      Inv root base st → convertItems root base fuel items st = some st2 →
      Inv root base st2 := by
  intro items
  induction items with
  | nil =>
    intro st st2 _ hInv h
    rw [convertItems] at h
    cases h
    exact hInv
  | cons t ts ih =>
    intro st st2 hmem hInv h
    rw [convertItems] at h
    cases hpe : process root base fuel t st with
    | none => rw [hpe] at h; cases h
    | some r =>
      obtain ⟨s, stm⟩ := r
      rw [hpe] at h
      have hmemT : t ∈ subnodes root := hmem t (List.mem_cons_self _ _)
      obtain ⟨hInvm, _⟩ := process_sound root base hnd fuel t st s stm hmemT hInv hpe
      exact ih stm st2 (fun x hx => hmem x (List.mem_cons_of_mem _ hx)) hInvm h

theorem inv_init (root : Node) (base : String) : Inv root base initState := by
  refine ⟨?_, ?_, ?_, ?_⟩
  · intro k i hk
    simp [initState, lookupMemo] at hk
  · intro k k2 i hk
    simp [initState, lookupMemo] at hk
  · intro n2 _ s2 hs2
    simp [initState, lookupMemo] at hs2
  · intro t ht
    simp [initState] at ht

/-- C3: in any driver run over a document whose element identities are distinct,
an item whose itemid resolves is memoized under exactly the absolutized itemid
URI and never an anonymous identifier, an item without itemid is memoized under
an anonymous identifier, no anonymous identifier is shared by two different
items, and every emitted triple has the memoized Subject of some item as its
subject, so all triples of an item carry its one Subject. -/
theorem c3_subject_discipline (root : Node) (base : String)
    (hnd : (elemIds root).Nodup) (st2 : CState)
    (hrun : convertItems root base (docFuel root) (topLevelItems root) initState = some st2) :
    (∀ n, n ∈ subnodes root → ∀ s, lookupMemo st2.memo (nidOf n) = some s →
      (∀ u, itemidSubject base n = some u → s = .uri u) ∧
      (itemidSubject base n = none → ∃ i, s = .anon i)) ∧
    anonInj st2.memo ∧
    (∀ t ∈ st2.triples, ∃ k, lookupMemo st2.memo k = some t.subj) := by
  have hInv : Inv root base st2 :=
    convertItems_sound root base hnd (docFuel root) (topLevelItems root) initState st2
      (topLevelItems_sub root) (inv_init root base) hrun
  exact ⟨hInv.subjs, hInv.inj, hInv.trips⟩

/-- Witness for C3 on a concrete run: the type triple of the exThing item has a
memoized Subject, namely its itemid URI, as its subject. -/
theorem c3_subject_discipline_witness :
    ∃ k, lookupMemo exThingState.memo k = some (Subject.uri "http://example.org/thing1") :=
  (c3_subject_discipline exThing "http://e.org/" (by decide) exThingState (by decide)).2.2
    ⟨.uri "http://example.org/thing1", rdf_type, Obj.val (.uriVal "http://schema.org/Thing")⟩
    (by decide)

/-! Determinism up to renaming of anonymous identifiers. -/

theorem renameSubject_id (s : Subject) : renameSubject id s = s := by
  cases s <;> rfl

theorem renameObj_id (o : Obj) : renameObj id o = o := by
  cases o with
  | subj s => rw [renameObj, renameSubject_id]
  | val v => rfl

theorem renameTriple_id (t : Triple) : renameTriple id t = t := by
  obtain ⟨s, p, o⟩ := t
  rw [renameTriple]
  simp only [renameSubject_id, renameObj_id]

theorem map_renameTriple_id (ts : List Triple) : ts.map (renameTriple id) = ts := by
  induction ts with
  | nil => rfl
  | cons a t ih => rw [List.map_cons, renameTriple_id, ih]

/-- C5: the conversion is a pure function of the document and the base, so two
runs on the same document produce identical triple lists, and in particular
there is a bijective renaming of anonymous identifiers (the identity) carrying
the triples of one run onto the triples of the other. -/
theorem c5_deterministic_up_to_renaming (root : Node) (base : String) :
    ∃ f : Nat → Nat, Function.Bijective f ∧
      Option.map (List.map (renameTriple f)) (convert root base) = convert root base := by
  refine ⟨id, Function.bijective_id, ?_⟩
  cases h : convert root base with
  | none => rfl
  | some ts => simp [map_renameTriple_id]

/-- C7: a well-formed document with no microdata annotations at all converts
without error and the resulting graph has zero triples. -/
theorem c7_no_microdata_zero_triples (root : Node) (base : String)
    (h : ∀ n ∈ subnodes root, hasAttr n "itemscope" = false) :
    convert root base = some [] ∧ graph_from_dom base (.doc root) none = .ok ⟨[]⟩ := by
  have htop : topLevelItems root = [] := by
    rw [topLevelItems]
    refine List.filter_eq_nil_iff.mpr ?_
    intro a ha
    simp [isTopLevel, h a ha]
  have hcv : convert root base = some [] := by
    rw [convert, htop, convertItems]
    rfl
  refine ⟨hcv, ?_⟩
  simp only [graph_from_dom, hcv]
  rfl

/-- Witness for C7: a document with ordinary markup and no itemscope anywhere
yields a graph with zero triples. -/
theorem c7_no_microdata_zero_triples_witness :
    convert exPlain "http://e.org/" = some [] ∧
    graph_from_dom "http://e.org/" (.doc exPlain) none = .ok ⟨[]⟩ :=
  c7_no_microdata_zero_triples exPlain "http://e.org/" (by decide)

/-- C4: a bare itemprop token (one without a scheme delimiter) forms its
predicate by concatenating the vocabulary and the token, a hash inserted only
when the vocabulary does not already end in slash, hash or underscore; when the
vocabulary is None the bare token forms no predicate and its property pair is
skipped without error, contributing no triple. -/
theorem c4_bare_token_predicate (base v token : String)
    (rec : Node → CState → Option (Subject × CState)) (subj : Subject) (p : Node)
    (rest : List (Node × String)) (st : CState)
    (h : containsChar token ':' = false) :
    predicate_for base (some v) token =
      some (v ++ (if ends_with_sep v then "" else "#") ++ token) ∧
    predicate_for base none token = none ∧
    processPairsWith base rec subj none ((p, token) :: rest) st =
      processPairsWith base rec subj none rest st := by
  have h1 : predicate_for base none token = none := by
    simp [predicate_for, h]
  refine ⟨?_, h1, ?_⟩
  · simp [predicate_for, h]
  · rw [processPairsWith, h1]

/-- Witness for C4 at the spec scenario: the bare token link with a vocabulary
forms a hash-joined predicate, without a vocabulary it forms none, and its pair
is skipped. -/
theorem c4_bare_token_predicate_witness :
    predicate_for "http://e.org/" (some "http://schema.org/Person") "link" =
      some ("http://schema.org/Person" ++
        (if ends_with_sep "http://schema.org/Person" then "" else "#") ++ "link") ∧
    predicate_for "http://e.org/" none "link" = none ∧
    processPairsWith "http://e.org/" (fun _ _ => none) (.anon 0) none
        ((Node.text "x", "link") :: []) initState =
      processPairsWith "http://e.org/" (fun _ _ => none) (.anon 0) none [] initState :=
  c4_bare_token_predicate "http://e.org/" "http://schema.org/Person" "link"
    (fun _ _ => none) (.anon 0) (Node.text "x") [] initState (by decide)

/-- C10: _validate_output_format returns every whitelist member unchanged and
maps every other string, the key json included, to turtle. -/
theorem c10_validate_output_format (s t : String)
    (hs : s ∈ ["turtle", "n3", "xml", "pretty-xml", "nt", "json-ld"])
    (ht : t ∉ ["turtle", "n3", "xml", "pretty-xml", "nt", "json-ld"]) :
    _validate_output_format s = s ∧ _validate_output_format t = "turtle" ∧
    _validate_output_format "json" = "turtle" := by
  refine ⟨?_, ?_, by decide⟩
  · rw [_validate_output_format, if_pos hs]
  · rw [_validate_output_format, if_neg ht]

/-- Witness for C10 at the format keys turtle and json. -/
theorem c10_validate_output_format_witness :
    _validate_output_format "turtle" = "turtle" ∧
    _validate_output_format "json" = "turtle" ∧
    _validate_output_format "json" = "turtle" :=
  c10_validate_output_format "turtle" "json" (by decide) (by decide)

/-- C8: the try block of process_uri reads the unbound local outputFormat at its
first statement and raises UnboundLocalError for every input, so the normal
path that returns the serialized graph with its Content-Type header is
unreachable and every call returns the generic exception page. -/
theorem c8_process_uri_unbound_local (output_format : String)
    (rdf_result : Except PyExc String) :
    process_uri_try output_format rdf_result = .error .unboundLocal ∧
    process_uri output_format rdf_result = .genericErrorPage output_format :=
  ⟨rfl, rfl⟩

/-- C9: _generate_error_graph called with a None graph raises AttributeError at
the bind calls on pgraph, and consequently graph_from_source with graph None
and rdf_output true raises AttributeError on every failing open or parse,
instead of returning the promised error graph. -/
theorem c9_generate_error_graph_raises (full_msg : String) (uri : Option String)
    (status : Option Nat) (base name_ : String) (code : Nat) (hmsg pmsg : String)
    (pr : ParseResult) :
    _generate_error_graph none full_msg uri status = .error .attributeError ∧
    graph_from_source base name_ (.httpFail code hmsg) pr none true = .error .attributeError ∧
    graph_from_source base name_ (.otherFail hmsg) pr none true = .error .attributeError ∧
    graph_from_source base name_ .opened (.parseFail pmsg) none true = .error .attributeError :=
  ⟨rfl, rfl, rfl, rfl⟩

/-- C6: behavior of the conversion entry points on structurally invalid input.
With rdf_output false every failure to open or parse raises; with rdf_output
true and a caller-supplied graph the call returns that graph extended with the
dedicated error triples; with rdf_output true and no supplied graph (the
default) the error-graph construction itself raises AttributeError, so the
promised dedicated error graph is never produced on that path, though no case
silently returns an empty graph; a null document tree raises AttributeError. -/
theorem c6_structural_error_behaviour (base name_ : String) (code : Nat)
    (hmsg pmsg : String) (pr : ParseResult) (g0 : Graph) (g : Option Graph) :
    graph_from_source base name_ (.httpFail code hmsg) pr g false =
      .error (.httpError code hmsg) ∧
    graph_from_source base name_ (.otherFail hmsg) pr g false = .error (.generic hmsg) ∧
    graph_from_source base name_ .opened (.parseFail pmsg) g false =
      .error (.generic pmsg) ∧
    graph_from_source base name_ (.httpFail code hmsg) pr (some g0) true =
      .ok ⟨g0.triples ++ errorTriples ("HTTP Error: " ++ toString code ++ " (" ++ hmsg ++ ")")
        (some name_) (some code)⟩ ∧
    graph_from_source base name_ (.otherFail hmsg) pr (some g0) true =
      .ok ⟨g0.triples ++ errorTriples hmsg (some name_) (some 500)⟩ ∧
    graph_from_source base name_ .opened (.parseFail pmsg) (some g0) true =
      .ok ⟨g0.triples ++ errorTriples pmsg (some name_) (some 400)⟩ ∧
    graph_from_source base name_ (.httpFail code hmsg) pr none true =
      .error .attributeError ∧
    graph_from_dom base .null g = .error .attributeError :=
  ⟨rfl, rfl, rfl, rfl, rfl, rfl, rfl, rfl⟩

end Microdata
